import Mathlib

/-!
Verification of the `realize` configuration-management core: a shallow
embedding of `src/resource.rs` (Resource / Key contracts), `src/meta.rs`
(the `Reality` aggregator), `src/fs.rs` (the `File` resource) and
`src/lib.rs` (the apply orchestrator), with theorems settling the spec's
claims about deduplication, prerequisite ordering, short-circuit verify,
fail-fast realize and the single-pass orchestration.
-/

/-- Model of a Rust `std::path::PathBuf` as used by `fs.rs`: a flag telling
whether the path is absolute plus the list of normal components.  Mirrors the
Rust semantics relevant here: `Path::new("a").parent() == Some("")`,
`Path::new("/a").parent() == Some("/")`, and `parent` of `""` or `"/"` is
`None`. -/
structure RPath where
  absolute : Bool
  components : List String
deriving DecidableEq

/-- Rust `Path::parent`: drop the last component; `None` when there is no
component left (the empty relative path `""` or the root `"/"`). -/
def RPath.parent : RPath → Option RPath
  | ⟨_, []⟩ => none
  | ⟨abs, cs⟩ => some ⟨abs, cs.dropLast⟩

/-- Join path components with `/` separators, as Rust renders a path. -/
def joinComponents : List String → String
  | [] => ""
  | [c] => c
  | c :: rest => c ++ "/" ++ joinComponents rest

/-- Render a path the way Rust displays a `PathBuf` (without the surrounding
quotes that `{:?}` adds). -/
def RPath.render (p : RPath) : String :=
  (if p.absolute then "/" else "") ++ joinComponents p.components

/-- Rust `format!` of a `PathBuf` with `{:?}` wraps the rendered path in
double quotes (escape sequences inside the path are not modelled). -/
def quotePath (p : RPath) : String :=
  "\"" ++ RPath.render p ++ "\""

/-- `resource::Key` from `src/resource.rs`: a structural resource identity.
`map` models the `BTreeMap<String, Key>` variant as an association list that
is kept sorted by construction (the claims never build `map` keys); `seq`,
`string` and `path` are as in the source. -/
inductive Key where
  | map : List (String × Key) → Key
  | seq : List Key → Key
  | string : String → Key
  | path : RPath → Key

mutual

/-- Decidable equality for `Key`, written by hand because `Key` nests `List`;
it corresponds to the derived `PartialEq`/`Eq` of the Rust enum. -/
def Key.decEq : (a b : Key) → Decidable (a = b)
  | .map a, .map b =>
    match Key.decEqMapList a b with
    | isTrue h => isTrue (by rw [h])
    | isFalse h => isFalse (by intro hh; cases hh; exact h rfl)
  | .map _, .seq _ => isFalse (fun h => Key.noConfusion h)
  | .map _, .string _ => isFalse (fun h => Key.noConfusion h)
  | .map _, .path _ => isFalse (fun h => Key.noConfusion h)
  | .seq _, .map _ => isFalse (fun h => Key.noConfusion h)
  | .seq a, .seq b =>
    match Key.decEqList a b with
    | isTrue h => isTrue (by rw [h])
    | isFalse h => isFalse (by intro hh; cases hh; exact h rfl)
  | .seq _, .string _ => isFalse (fun h => Key.noConfusion h)
  | .seq _, .path _ => isFalse (fun h => Key.noConfusion h)
  | .string _, .map _ => isFalse (fun h => Key.noConfusion h)
  | .string _, .seq _ => isFalse (fun h => Key.noConfusion h)
  | .string a, .string b =>
    if h : a = b then isTrue (by rw [h]) else isFalse (by intro hh; cases hh; exact h rfl)
  | .string _, .path _ => isFalse (fun h => Key.noConfusion h)
  | .path _, .map _ => isFalse (fun h => Key.noConfusion h)
  | .path _, .seq _ => isFalse (fun h => Key.noConfusion h)
  | .path _, .string _ => isFalse (fun h => Key.noConfusion h)
  | .path a, .path b =>
    if h : a = b then isTrue (by rw [h]) else isFalse (by intro hh; cases hh; exact h rfl)

/-- Decidable equality on the entry lists of `Key.map`. -/
def Key.decEqMapList : (a b : List (String × Key)) → Decidable (a = b)
  | [], [] => isTrue rfl
  | [], _ :: _ => isFalse (fun h => List.noConfusion h)
  | _ :: _, [] => isFalse (fun h => List.noConfusion h)
  | (ka, va) :: as, (kb, vb) :: bs =>
    if h1 : ka = kb then
      match Key.decEq va vb, Key.decEqMapList as bs with
      | isTrue h2, isTrue h3 => isTrue (by rw [h1, h2, h3])
      | isFalse h2, _ => isFalse (by intro hh; cases hh; exact h2 rfl)
      | _, isFalse h3 => isFalse (by intro hh; cases hh; exact h3 rfl)
    else isFalse (by intro hh; cases hh; exact h1 rfl)

/-- Decidable equality on the element lists of `Key.seq`. -/
def Key.decEqList : (a b : List Key) → Decidable (a = b)
  | [], [] => isTrue rfl
  | [], _ :: _ => isFalse (fun h => List.noConfusion h)
  | _ :: _, [] => isFalse (fun h => List.noConfusion h)
  | a :: as, b :: bs =>
    match Key.decEq a b, Key.decEqList as bs with
    | isTrue h1, isTrue h2 => isTrue (by rw [h1, h2])
    | isFalse h1, _ => isFalse (by intro hh; cases hh; exact h1 rfl)
    | _, isFalse h2 => isFalse (by intro hh; cases hh; exact h2 rfl)

end

instance : DecidableEq Key := Key.decEq

mutual

/-- `impl fmt::Display for Key` from `src/resource.rs`. -/
def displayKey : Key → String
  | .map kvs => "\x7b" ++ displayKeyMap kvs ++ "\x7d"
  | .seq ks => "[" ++ displayKeySeq ks ++ "]"
  | .string s => "\"" ++ s ++ "\""
  | .path p => quotePath p

/-- Comma-separated `field: value` rendering of `Key.map` entries. -/
def displayKeyMap : List (String × Key) → String
  | [] => ""
  | [(k, v)] => k ++ ": " ++ displayKey v
  | (k, v) :: rest => k ++ ": " ++ displayKey v ++ ", " ++ displayKeyMap rest

/-- Comma-separated rendering of `Key.seq` elements. -/
def displayKeySeq : List Key → String
  | [] => ""
  | [k] => displayKey k
  | k :: rest => displayKey k ++ ", " ++ displayKeySeq rest

end

/-- The `FileType` enum of `src/fs.rs`; file contents are byte lists. -/
inductive FileType where
  | absent : FileType
  | file : Option (List Nat) → FileType
  | dir : FileType
  | symlink : RPath → FileType
deriving DecidableEq

/-- The `File` resource of `src/fs.rs`. -/
structure File where
  path : RPath
  file_type : FileType
deriving DecidableEq

/-- `File::at`: start reasoning about a path; the resulting resource only
ensures that a regular file exists there. -/
def File.at (path : RPath) : File :=
  ⟨path, FileType.file none⟩

/-- `File::contains`: the file should hold exactly these bytes. -/
def File.contains (f : File) (contents : List Nat) : File :=
  ⟨f.path, FileType.file (some contents)⟩

/-- `File::is_file`: the file is a regular file with any contents. -/
def File.is_file (f : File) : File :=
  ⟨f.path, FileType.file none⟩

/-- `File::is_dir`: the file is a directory. -/
def File.is_dir (f : File) : File :=
  ⟨f.path, FileType.dir⟩

/-- `File::points_to`: the file is a symlink to the supplied path. -/
def File.points_to (f : File) (target : RPath) : File :=
  ⟨f.path, FileType.symlink target⟩

/-- `File::is_absent`: the file should be absent, and will be deleted if it
exists (per the doc comment in `src/fs.rs`). -/
def File.is_absent (f : File) : File :=
  ⟨f.path, FileType.absent⟩

/-- The `failure`-style error chain: a base cause wrapped in zero or more
human-readable context layers added by `with_context` / `chain_err`. -/
inductive RErr where
  | base : String → RErr
  | ctx : String → RErr → RErr
deriving DecidableEq

deriving instance DecidableEq for Except

/-- One node of the modelled target file system. -/
inductive Node where
  | file : List Nat → Node
  | dir : Node
  | symlink : RPath → Node
deriving DecidableEq

/-- The modelled target file system: a flat map from path to node.  Directory
tree structure is not modelled beyond paths (so `remove_dir` on a non-empty
directory and `File::create` with a missing parent do not fail in the model);
no claim depends on those failure modes. -/
abbrev FS : Type := List (RPath × Node)

/-- Look up the node stored at a path (no symlink resolution). -/
def FS.find : FS → RPath → Option Node
  | [], _ => none
  | (q, n) :: rest, p => if q = p then some n else FS.find rest p

/-- Remove every entry stored at a path. -/
def FS.erase : FS → RPath → FS
  | [], _ => []
  | (q, n) :: rest, p => if q = p then FS.erase rest p else (q, n) :: FS.erase rest p

/-- Create or overwrite the entry at a path. -/
def FS.insert (fs : FS) (p : RPath) (n : Node) : FS :=
  (p, n) :: FS.erase fs p

/-- Resolve symlink chains with explicit fuel; `none` models a failing
`stat` (missing path or a symlink loop / broken link). -/
def resolveNode (fs : FS) : Nat → RPath → Option Node
  | 0, _ => none
  | fuel + 1, p =>
    match FS.find fs p with
    | some (Node.symlink t) => resolveNode fs fuel t
    | some n => some n
    | none => none

/-- Rust `fs::metadata`: follows symlinks, so the node it reports is never a
symlink; `none` models an `Err` result.  `Path::exists()` is
`fs::metadata(path).is_ok()`, i.e. `isSome` of this. -/
def metadataOpt (fs : FS) (p : RPath) : Option Node :=
  resolveNode fs (fs.length + 1) p

/-- `Node.isFile`: the metadata reports a regular file. -/
def Node.isFile : Node → Bool
  | Node.file _ => true
  | _ => false

/-- `Node.isDir`: the metadata reports a directory. -/
def Node.isDir : Node → Bool
  | Node.dir => true
  | _ => false

/-- `Node.isSymlink`: the metadata reports a symlink.  Because `fs::metadata`
follows symlinks, this is never true for a resolved node. -/
def Node.isSymlink : Node → Bool
  | Node.symlink _ => true
  | _ => false

/-- Rust `fs::read_link`: the raw node must be a symlink. -/
def readLink (fs : FS) (p : RPath) : Except RErr RPath :=
  match FS.find fs p with
  | some (Node.symlink t) => Except.ok t
  | _ => Except.error (RErr.base "not a symlink")

/-- Modelled from the spec: the content-fingerprint primitive.  The SHA-1
implementation lives in the external `sha1` crate (not under `src/`); the
spec treats fingerprinting as an opaque "compare contents" primitive, so it
is modelled as the identity on byte strings, which is injective exactly like
a collision-free digest. -/
def sha1Digest (bs : List Nat) : List Nat := bs

/-- One lowercase hexadecimal digit. -/
def hexDigit (n : Nat) : Char :=
  if n < 10 then Char.ofNat (48 + n) else Char.ofNat (87 + n)

/-- Lowercase hexadecimal rendering of a digest, as `Digest::to_string`. -/
def sha1Hex (bs : List Nat) : String :=
  String.mk (bs.foldr (fun b acc => hexDigit (b / 16 % 16) :: hexDigit (b % 16) :: acc) [])

/-- `File::verify` from `src/fs.rs`.  Structure mirrors the source: an early
`Ok(false)` when `self.path.exists()` is false, one `fs::metadata` call, then
a match on the declared file type in which each mismatch returns `Ok(false)`
and the `Absent` arm does nothing, falling through to `Ok(true)`. -/
def fileVerify (f : File) (fs : FS) : Except RErr Bool :=
  match metadataOpt fs f.path with
  | none => Except.ok false
  | some metadata =>
    match f.file_type with
    | FileType.file contents =>
      if metadata.isFile then
        match contents, metadata with
        | some c, Node.file bs =>
          if sha1Hex (sha1Digest bs) ≠ sha1Hex (sha1Digest c) then Except.ok false
          else Except.ok true
        | _, _ => Except.ok true
      else Except.ok false
    | FileType.dir => if metadata.isDir then Except.ok true else Except.ok false
    | FileType.symlink newTarget =>
      if metadata.isSymlink then
        match readLink fs f.path with
        | Except.error e =>
          Except.error (RErr.ctx ("Failed to read link target of " ++ quotePath f.path) e)
        | Except.ok oldTarget =>
          if oldTarget ≠ newTarget then Except.ok false else Except.ok true
      else Except.ok false
    | FileType.absent => Except.ok true

/-- Whether `Path::is_dir()` holds (follows symlinks, like `fs::metadata`). -/
def isDirAt (fs : FS) (p : RPath) : Bool :=
  match metadataOpt fs p with
  | some Node.dir => true
  | _ => false

/-- Whether `Path::is_file()` holds (follows symlinks). -/
def isFileAt (fs : FS) (p : RPath) : Bool :=
  match metadataOpt fs p with
  | some (Node.file _) => true
  | _ => false

/-- Rust `fs::create_dir_all` with explicit recursion fuel (one step per
path component, so the fuel passed by `createDirAll` is always enough and
the zero-fuel fallback is never reached): succeed without change on an
existing directory and on the empty path, fail on an existing non-directory,
and otherwise create the missing directory after its parents. -/
def createDirAllGo : Nat → FS → RPath → Except RErr FS
  | fuel, fs, p =>
    if p.components = [] then Except.ok fs
    else
      match metadataOpt fs p with
      | some Node.dir => Except.ok fs
      | some _ => Except.error (RErr.base "not a directory")
      | none =>
        match fuel with
        | 0 => Except.ok (FS.insert fs p Node.dir)
        | fuel + 1 =>
          match createDirAllGo fuel fs ⟨p.absolute, p.components.dropLast⟩ with
          | Except.error e => Except.error e
          | Except.ok fs1 => Except.ok (FS.insert fs1 p Node.dir)

/-- Rust `fs::create_dir_all`. -/
def createDirAll (fs : FS) (p : RPath) : Except RErr FS :=
  createDirAllGo p.components.length fs p

/-- `File::realize` from `src/fs.rs`: delete for `Absent` (first a directory
check, then a file check), write declared contents for `File` (and do nothing
at all when no contents are declared), `create_dir_all` for `Dir`, and
symlink creation (which fails if the path already exists) for `Symlink`. -/
def fileRealize (f : File) (fs : FS) : Except RErr FS :=
  match f.file_type with
  | FileType.absent =>
    let fs1 := if isDirAt fs f.path then FS.erase fs f.path else fs
    let fs2 := if isFileAt fs1 f.path then FS.erase fs1 f.path else fs1
    Except.ok fs2
  | FileType.file contents =>
    match contents with
    | some c => Except.ok (FS.insert fs f.path (Node.file c))
    | none => Except.ok fs
  | FileType.dir =>
    match createDirAll fs f.path with
    | Except.error e =>
      Except.error (RErr.ctx ("Failed to create directory " ++ quotePath f.path) e)
    | Except.ok fs1 => Except.ok fs1
  | FileType.symlink target =>
    if (FS.find fs f.path).isSome then
      Except.error (RErr.ctx ("Failed to create symlink " ++ quotePath f.path)
        (RErr.base "EEXIST"))
    else Except.ok (FS.insert fs f.path (Node.symlink target))

/-- `impl fmt::Display for File` from `src/fs.rs`: the kind word, the quoted
path, and for declared contents a SHA-1 prefix, for symlinks the target. -/
def displayFile (f : File) : String :=
  (match f.file_type with
   | FileType.absent => "absent"
   | FileType.file _ => "file"
   | FileType.dir => "directory"
   | FileType.symlink _ => "symlink")
  ++ " " ++ quotePath f.path
  ++ (match f.file_type with
      | FileType.file (some c) => " with sha1 " ++ (sha1Hex (sha1Digest c)).take 8
      | FileType.symlink t => " with target " ++ quotePath t
      | _ => "")

/-- An arbitrary further `UnresolvedResource` implementation, as the spec's
testable properties use abstract members `m1, m2, m3`.  `tag` models the
distinct Rust `TypeId` of the concrete type, `rkey` its `key()`, `verifyR`
and `realizeR` the outcomes of its `verify`/`realize` (a test member does not
touch the file system), and `descr` its `Display` rendering; it keeps the
default empty `implicit_ensure` of the `UnresolvedResource` trait. -/
structure TestRes where
  tag : Nat
  rkey : Key
  verifyR : Except RErr Bool
  realizeR : Except RErr Unit
  descr : String
deriving DecidableEq

/-- A resource stored in the aggregator: either the `File` resource of
`src/fs.rs` or an abstract further resource kind. -/
inductive Res where
  | file : File → Res
  | test : TestRes → Res
deriving DecidableEq

/-- `Resource::key`: for `File` it is `Key::Path` of the path. -/
def Res.key : Res → Key
  | .file f => Key.path f.path
  | .test t => t.rkey

/-- `any::TypeId::of::<R>()`: a tag distinguishing concrete resource types;
`File` gets tag 0 and the abstract kinds their own distinct tags. -/
def Res.typeId : Res → Nat
  | .file _ => 0
  | .test t => t.tag + 1

/-- The declaration identity `(TypeId, Key)` used by `Reality::ensure`. -/
def Res.ident (r : Res) : Nat × Key :=
  (r.typeId, r.key)

/-- `Resource::Display` for the stored resource kinds. -/
def displayRes : Res → String
  | .file f => displayFile f
  | .test t => t.descr

/-- Dispatch `verify` to the member (`File::verify` reads the modelled file
system; an abstract member returns its fixed outcome). -/
def Res.runVerify : Res → FS → Except RErr Bool
  | .file f, fs => fileVerify f fs
  | .test t, _ => t.verifyR

/-- Dispatch `realize` to the member; an abstract member leaves the file
system unchanged on success. -/
def Res.runRealize : Res → FS → Except RErr FS
  | .file f, fs => fileRealize f fs
  | .test t, fs =>
    match t.realizeR with
    | Except.ok _ => Except.ok fs
    | Except.error e => Except.error e

/-- The duplicate-declaration diagnostic emitted by `Reality::ensure`: the
rendered shared key and the `Display` renderings of the kept and rejected
resources, exactly the three values the `warn!` call formats. -/
structure Diag where
  dkey : String
  old : String
  new : String
deriving DecidableEq

/-- The `Reality` aggregator of `src/meta.rs`: the insertion-ordered map from
declaration identity to resource (the `LinkedHashMap`, modelled as an
insertion-ordered association list), plus the list of duplicate-declaration
diagnostics emitted so far (the `warn!` log sink). -/
structure Reality where
  resources : List ((Nat × Key) × Res)
  warnings : List Diag
deriving DecidableEq

/-- `Reality::new`: empty map, nothing logged. -/
def Reality.new : Reality :=
  ⟨[], []⟩

/-- `LinkedHashMap` lookup by identity (first — and by the no-duplicates
invariant only — matching entry). -/
def findRes : List ((Nat × Key) × Res) → (Nat × Key) → Option Res
  | [], _ => none
  | (k, r) :: rest, key => if k = key then some r else findRes rest key

/-- The entry match inside `Reality::ensure` (after `implicit_ensure` ran):
an occupied entry keeps its stored value — warning exactly when the new value
is unequal — and a vacant entry is inserted at the end of the order. -/
def Reality.store (s : Reality) (r : Res) : Reality :=
  match findRes s.resources r.ident with
  | some existing =>
    if existing ≠ r then
      ⟨s.resources, s.warnings ++ [⟨displayKey r.ident.2, displayRes existing, displayRes r⟩]⟩
    else s
  | none => ⟨s.resources ++ [(r.ident, r)], s.warnings⟩

/-- Depth of the implicit-prerequisite recursion started by a resource: a
`File`'s parent chain has exactly one step per path component, an abstract
resource keeps the trait's empty `implicit_ensure`. -/
def Res.implicitDepth : Res → Nat
  | .file f => f.path.components.length
  | .test _ => 0

/-- `Reality::ensure` with explicit recursion fuel: first run the resource's
`implicit_ensure` (for a `File` with a parent, `ensure(File::at(parent)
.is_dir())`; note `File::at(p).is_dir()` is `File { path: p, file_type:
Dir }`), then run the entry match on `(TypeId, Key)`.  The fuel only bounds
the parent-chain recursion — one step per path component — so
`Res.implicitDepth` fuel is always enough; the zero-fuel `file` arm is never
reached from `Reality.ensure`. -/
def Reality.ensureGo : Nat → Reality → Res → Reality
  | _, s, .test t => Reality.store s (.test t)
  | 0, s, .file f => Reality.store s (.file f)
  | fuel + 1, s, .file f =>
    Reality.store
      (match f.path.parent with
       | some p => Reality.ensureGo fuel s (.file ⟨p, FileType.dir⟩)
       | none => s)
      (.file f)

/-- `Reality::ensure` from `src/meta.rs`. -/
def Reality.ensure (s : Reality) (r : Res) : Reality :=
  Reality.ensureGo r.implicitDepth s r

/-- The member resources in insertion order (the `LinkedHashMap` values). -/
def Reality.members (s : Reality) : List Res :=
  s.resources.map Prod.snd

/-- The identities in insertion order (the `LinkedHashMap` keys). -/
def Reality.identities (s : Reality) : List (Nat × Key) :=
  s.resources.map Prod.fst

/-- The member loop of `Reality::verify`: members in insertion order; stop at
the first `Ok(false)` or at the first error (wrapped with the "Could not
verify" context).  The first component instruments the loop with the list of
members whose `verify` was actually invoked, so that short-circuiting is
expressible; the second component is the source function's return value. -/
def verifyMembers : List Res → FS → List Res × Except RErr Bool
  | [], _ => ([], Except.ok true)
  | r :: rest, fs =>
    match r.runVerify fs with
    | Except.error e =>
      ([r], Except.error (RErr.ctx ("Could not verify " ++ displayRes r) e))
    | Except.ok false => ([r], Except.ok false)
    | Except.ok true =>
      let tail := verifyMembers rest fs
      (r :: tail.1, tail.2)

/-- The member loop of `Reality::realize`: members in insertion order, each
realizing against the file system left by its predecessors; the first failure
is wrapped with the "Could not realize" context naming the member and
propagated at once.  Instrumented like `verifyMembers` with the list of
members whose `realize` was actually invoked. -/
def realizeMembers : List Res → FS → List Res × Except RErr FS
  | [], fs => ([], Except.ok fs)
  | r :: rest, fs =>
    match r.runRealize fs with
    | Except.error e =>
      ([r], Except.error (RErr.ctx ("Could not realize " ++ displayRes r) e))
    | Except.ok fs1 =>
      let tail := realizeMembers rest fs1
      (r :: tail.1, tail.2)

/-- `Reality::verify` from `src/meta.rs` (instrumented). -/
def Reality.verify (s : Reality) (fs : FS) : List Res × Except RErr Bool :=
  verifyMembers s.members fs

/-- `Reality::realize` from `src/meta.rs` (instrumented). -/
def Reality.realize (s : Reality) (fs : FS) : List Res × Except RErr FS :=
  realizeMembers s.members fs

/-- The observable outcome of one run of `apply_inner`: its returned result
plus how many times it called the aggregator's `verify` and `realize`. -/
structure ApplyOut where
  result : Except RErr Unit
  verifyCalls : Nat
  realizeCalls : Nat
deriving DecidableEq

/-- `apply_inner` from `src/lib.rs`: build an empty `Reality`, run the
configuration procedure on it once, call `verify` once; on `Ok(true)` stop,
on `Ok(false)` call `realize` once (propagating its error), and propagate a
`verify` error directly.  No retry loop and no re-verification exist in the
source, so the call counts are literal. -/
def apply_inner (config : Reality → Reality) (fs : FS) : ApplyOut :=
  let resource := config Reality.new
  match (Reality.verify resource fs).2 with
  | Except.error e => ⟨Except.error e, 1, 0⟩
  | Except.ok true => ⟨Except.ok (), 1, 0⟩
  | Except.ok false =>
    match (Reality.realize resource fs).2 with
    | Except.error e => ⟨Except.error e, 1, 1⟩
    | Except.ok _ => ⟨Except.ok (), 1, 1⟩

/-- The strict ancestor chain of a path, nearest first, with fuel (one step
per component, so the fuel passed by `RPath.ancestors` is always enough). -/
def RPath.ancestorsGo : Nat → RPath → List RPath
  | 0, _ => []
  | fuel + 1, p =>
    match p.parent with
    | none => []
    | some q => q :: RPath.ancestorsGo fuel q

/-- The strict ancestor chain of a path, nearest first: `a/b/c` yields
`a/b`, `a`, `""` (and `/a/b` yields `/a`, `/`, stopping before `parent`
returns `None`). -/
def RPath.ancestors (p : RPath) : List RPath :=
  RPath.ancestorsGo p.components.length p

/-- Aggregator well-formedness: every stored entry's map key is exactly the
declaration identity `(TypeId, Key)` of the stored resource, as
`Reality::ensure` always inserts it. -/
def Consistent (s : Reality) : Prop :=
  ∀ e ∈ s.resources, e.1 = e.2.ident

/-- The prerequisite-ordering invariant: every stored `File` whose path has a
parent is preceded, strictly earlier in insertion order, by an entry whose
identity is the `File` identity of that parent path. -/
def ParentsBefore (s : Reality) : Prop :=
  ∀ (i : Nat) (k : Nat × Key) (f : File), s.resources[i]? = some (k, Res.file f) →
    ∀ p, f.path.parent = some p →
      ∃ j, j < i ∧ ∃ r2, s.resources[j]? = some ((0, Key.path p), r2)

/-- `findRes` finds the same entry after appending entries on the right. -/
theorem findRes_append_some {l : List ((Nat × Key) × Res)} {k : Nat × Key} {r : Res}
    (h : findRes l k = some r) (t : List ((Nat × Key) × Res)) :
    findRes (l ++ t) k = some r := by
  induction l with
  | nil => simp [findRes] at h
  | cons e rest ih =>
    obtain ⟨k1, r1⟩ := e
    by_cases hk : k1 = k
    · simp [findRes, hk] at h ⊢
      exact h
    · simp [findRes, hk] at h ⊢
      exact ih h

/-- A `findRes` miss only defers the lookup to the appended entries. -/
theorem findRes_append_none {l : List ((Nat × Key) × Res)} {k : Nat × Key}
    (h : findRes l k = none) (t : List ((Nat × Key) × Res)) :
    findRes (l ++ t) k = findRes t k := by
  induction l with
  | nil => simp
  | cons e rest ih =>
    obtain ⟨k1, r1⟩ := e
    by_cases hk : k1 = k
    · simp [findRes, hk] at h
    · simp [findRes, hk] at h ⊢
      exact ih h

/-- A `findRes` miss is exactly absence of the identity among the map keys. -/
theorem findRes_eq_none_iff (l : List ((Nat × Key) × Res)) (k : Nat × Key) :
    findRes l k = none ↔ k ∉ l.map Prod.fst := by
  induction l with
  | nil => simp [findRes]
  | cons e rest ih =>
    obtain ⟨k1, r1⟩ := e
    by_cases hk : k1 = k
    · simp [findRes, hk]
    · simp [findRes, hk, ih]
      intro h
      exact fun hh => hk hh.symm

/-- A `findRes` hit means the identity is among the map keys. -/
theorem findRes_mem {l : List ((Nat × Key) × Res)} {k : Nat × Key} {r : Res}
    (h : findRes l k = some r) : k ∈ l.map Prod.fst := by
  by_contra hmem
  rw [← findRes_eq_none_iff] at hmem
  rw [hmem] at h
  cases h

/-- `Reality.store` on a vacant identity appends the entry at the end. -/
theorem store_vacant {s : Reality} {r : Res} (h : findRes s.resources r.ident = none) :
    Reality.store s r = ⟨s.resources ++ [(r.ident, r)], s.warnings⟩ := by
  simp [Reality.store, h]

/-- `Reality.store` on an occupied identity never changes the stored entries. -/
theorem store_occupied {s : Reality} {r existing : Res}
    (h : findRes s.resources r.ident = some existing) :
    (Reality.store s r).resources = s.resources := by
  simp only [Reality.store, h]
  split <;> rfl

/-- `Reality.store` on an occupied identity with an equal value is a no-op. -/
theorem store_occupied_eq {s : Reality} {r : Res}
    (h : findRes s.resources r.ident = some r) :
    Reality.store s r = s := by
  simp [Reality.store, h]

/-- `Reality.store` on an occupied identity with an unequal value keeps the
entries and appends exactly one duplicate-declaration diagnostic. -/
theorem store_occupied_ne {s : Reality} {r existing : Res}
    (h : findRes s.resources r.ident = some existing) (hne : existing ≠ r) :
    Reality.store s r =
      ⟨s.resources,
       s.warnings ++ [⟨displayKey r.ident.2, displayRes existing, displayRes r⟩]⟩ := by
  simp [Reality.store, h, hne]

/-- `Reality.store` only ever appends entries on the right. -/
theorem store_resources_extend (s : Reality) (r : Res) :
    ∃ t, (Reality.store s r).resources = s.resources ++ t := by
  cases hfind : findRes s.resources r.ident with
  | none => exact ⟨[(r.ident, r)], by rw [store_vacant hfind]⟩
  | some existing => exact ⟨[], by rw [store_occupied hfind, List.append_nil]⟩

/-- After `Reality.store s r` the identity of `r` is present. -/
theorem store_ident_mem (s : Reality) (r : Res) :
    r.ident ∈ (Reality.store s r).identities := by
  cases hfind : findRes s.resources r.ident with
  | none =>
    rw [store_vacant hfind]
    simp [Reality.identities]
  | some existing =>
    have hmem := findRes_mem hfind
    have hres := store_occupied (r := r) hfind
    simp only [Reality.identities, hres]
    exact hmem

/-- `Reality.store` preserves the presence of any identity. -/
theorem store_ident_superset {s : Reality} {k : Nat × Key} (r : Res)
    (h : k ∈ s.identities) : k ∈ (Reality.store s r).identities := by
  obtain ⟨t, ht⟩ := store_resources_extend s r
  simp only [Reality.identities, ht, List.map_append]
  exact List.mem_append_left _ h

/-- `Reality.ensureGo` only ever appends entries on the right. -/
theorem ensureGo_resources_extend :
    ∀ (fuel : Nat) (s : Reality) (r : Res),
      ∃ t, (Reality.ensureGo fuel s r).resources = s.resources ++ t := by
  intro fuel
  induction fuel with
  | zero =>
    intro s r
    cases r with
    | test t => exact store_resources_extend s (.test t)
    | file f => exact store_resources_extend s (.file f)
  | succ n ih =>
    intro s r
    cases r with
    | test t => exact store_resources_extend s (.test t)
    | file f =>
      show ∃ t, (Reality.store _ (Res.file f)).resources = _
      cases hp : f.path.parent with
      | none =>
        simp only [hp]
        exact store_resources_extend s (.file f)
      | some p =>
        simp only [hp]
        obtain ⟨t1, h1⟩ := ih s (.file ⟨p, FileType.dir⟩)
        obtain ⟨t2, h2⟩ := store_resources_extend (Reality.ensureGo n s (.file ⟨p, FileType.dir⟩)) (.file f)
        exact ⟨t1 ++ t2, by rw [h2, h1, List.append_assoc]⟩

/-- `Reality.ensure` only ever appends entries on the right. -/
theorem ensure_resources_extend (s : Reality) (r : Res) :
    ∃ t, (Reality.ensure s r).resources = s.resources ++ t :=
  ensureGo_resources_extend r.implicitDepth s r

/-- After `Reality.ensureGo` the ensured resource's identity is present. -/
theorem ensureGo_ident_mem (fuel : Nat) (s : Reality) (r : Res) :
    r.ident ∈ (Reality.ensureGo fuel s r).identities := by
  cases fuel with
  | zero =>
    cases r with
    | test t => exact store_ident_mem s (.test t)
    | file f => exact store_ident_mem s (.file f)
  | succ n =>
    cases r with
    | test t => exact store_ident_mem s (.test t)
    | file f =>
      show (Res.file f).ident ∈ (Reality.store _ (Res.file f)).identities
      exact store_ident_mem _ (.file f)

/-- After `Reality.ensure` the ensured resource's identity is present. -/
theorem ensure_ident_mem (s : Reality) (r : Res) :
    r.ident ∈ (Reality.ensure s r).identities :=
  ensureGo_ident_mem r.implicitDepth s r

/-- `Reality.store` preserves distinctness of the stored identities. -/
theorem store_nodup {s : Reality} (r : Res) (h : s.identities.Nodup) :
    (Reality.store s r).identities.Nodup := by
  cases hfind : findRes s.resources r.ident with
  | some existing =>
    have hres := store_occupied (r := r) hfind
    simpa only [Reality.identities, hres] using h
  | none =>
    rw [store_vacant hfind]
    have hmem : r.ident ∉ s.resources.map Prod.fst :=
      (findRes_eq_none_iff s.resources r.ident).mp hfind
    simp only [Reality.identities, List.map_append, List.map_cons, List.map_nil] at h ⊢
    rw [← List.concat_eq_append]
    exact List.Nodup.concat hmem h

/-- `Reality.ensureGo` preserves distinctness of the stored identities. -/
theorem ensureGo_nodup :
    ∀ (fuel : Nat) (s : Reality) (r : Res),
      s.identities.Nodup → (Reality.ensureGo fuel s r).identities.Nodup := by
  intro fuel
  induction fuel with
  | zero =>
    intro s r h
    cases r with
    | test t => exact store_nodup (.test t) h
    | file f => exact store_nodup (.file f) h
  | succ n ih =>
    intro s r h
    cases r with
    | test t => exact store_nodup (.test t) h
    | file f =>
      show ((Reality.store _ (Res.file f)).identities).Nodup
      cases hp : f.path.parent with
      | none =>
        simp only [hp]
        exact store_nodup (.file f) h
      | some p =>
        simp only [hp]
        exact store_nodup (.file f) (ih s (.file ⟨p, FileType.dir⟩) h)

/-- `Reality.ensure` preserves distinctness of the stored identities. -/
theorem ensure_nodup (s : Reality) (r : Res) (h : s.identities.Nodup) :
    (Reality.ensure s r).identities.Nodup :=
  ensureGo_nodup r.implicitDepth s r h

/-- Any sequence of `ensure` calls from the empty aggregator keeps the stored
identities distinct. -/
theorem foldl_ensure_nodup (rs : List Res) :
    ((rs.foldl Reality.ensure Reality.new).identities).Nodup := by
  suffices h : ∀ (rs : List Res) (s : Reality),
      s.identities.Nodup → ((rs.foldl Reality.ensure s).identities).Nodup by
    exact h rs Reality.new (by simp [Reality.new, Reality.identities])
  intro rs
  induction rs with
  | nil => intro s h; exact h
  | cons r rest ih =>
    intro s h
    exact ih (Reality.ensure s r) (ensure_nodup s r h)

/-- An absent identity has no matching entry. -/
theorem filter_ident_nil {l : List ((Nat × Key) × Res)} {k : Nat × Key}
    (h : k ∉ l.map Prod.fst) :
    l.filter (fun e => e.1 = k) = [] := by
  induction l with
  | nil => rfl
  | cons e rest ih =>
    simp only [List.map_cons, List.mem_cons] at h
    push_neg at h
    simp only [List.filter_cons]
    have hne : ¬ e.1 = k := fun hh => h.1 hh.symm
    rw [if_neg (by simpa using hne), ih h.2]

/-- With distinct identities, a present identity matches exactly one entry. -/
theorem filter_ident_singleton :
    ∀ (l : List ((Nat × Key) × Res)) (k : Nat × Key),
      (l.map Prod.fst).Nodup → k ∈ l.map Prod.fst →
      (l.filter (fun e => e.1 = k)).length = 1 := by
  intro l
  induction l with
  | nil => intro k _ hmem; simp at hmem
  | cons e rest ih =>
    intro k hnodup hmem
    simp only [List.map_cons, List.nodup_cons] at hnodup
    simp only [List.map_cons, List.mem_cons] at hmem
    simp only [List.filter_cons]
    rcases hmem with hk | hk
    · rw [if_pos (by simp [hk]), filter_ident_nil (hk ▸ hnodup.1)]
      rfl
    · have hne : e.1 ≠ k := fun hh => hnodup.1 (hh ▸ hk)
      rw [if_neg (by simp [hne])]
      exact ih k hnodup.2 hk

/-- `Reality.ensure` of an abstract resource is exactly the entry match, the
trait's default `implicit_ensure` being empty. -/
theorem ensure_test_eq (s : Reality) (t : TestRes) :
    Reality.ensure s (Res.test t) = Reality.store s (Res.test t) := rfl

/-- Claim C1: ensuring the same declaration identity `(TypeId, Key)` with an
equal value any number of times leaves exactly one entry stored for that
identity, and at every point during and after any sequence of `ensure` calls
the aggregator holds at most one entry per identity: the identity list of
every aggregator reachable from `Reality::new` is duplicate-free, a single
`ensure` preserves duplicate-freedom from any such point (which covers the
states inside an `ensure`'s own implicit-prerequisite recursion, each being
an `ensure` image), and after ensuring `r` the number of entries carrying
`r`'s identity is exactly one. -/
theorem ensure_dedup_invariant :
    (∀ rs : List Res, ((rs.foldl Reality.ensure Reality.new).identities).Nodup)
    ∧ (∀ (s : Reality) (r : Res), s.identities.Nodup → ((Reality.ensure s r).identities).Nodup)
    ∧ (∀ (rs : List Res) (r : Res),
        (((rs.foldl Reality.ensure Reality.new).ensure r).resources.filter
          (fun e => e.1 = r.ident)).length = 1) := by
  refine ⟨foldl_ensure_nodup, ensure_nodup, ?_⟩
  intro rs r
  have hn := ensure_nodup _ r (foldl_ensure_nodup rs)
  have hmem := ensure_ident_mem (rs.foldl Reality.ensure Reality.new) r
  exact filter_ident_singleton _ _ hn hmem

/-- Concrete instance of the `ensure`-preserves-dedup part of C1. -/
theorem ensure_dedup_invariant_witness :
    (Reality.new.identities).Nodup ∧
    ((Reality.ensure Reality.new
        (Res.test ⟨5, Key.string "w", Except.ok true, Except.ok (), "w resource"⟩)).identities).Nodup :=
  ⟨by decide,
   ensure_dedup_invariant.2.1 Reality.new
     (Res.test ⟨5, Key.string "w", Except.ok true, Except.ok (), "w resource"⟩) (by decide)⟩

/-- Claim C2: `ensure(A)` then `ensure(B)` with the same declaration identity
but `A ≠ B` retains `A` as the stored value, leaves the stored entries of
the aggregator completely unchanged (so `B` is never stored and `A` is never
replaced), and appends exactly one duplicate-declaration diagnostic carrying
the rendered shared key and both `Display` descriptions.  `Reality::ensure`
returns `()` in the source and total state here, so no error is returned or
raised — the run continues. -/
theorem ensure_conflict_first_wins :
    ∀ (s : Reality) (A B : TestRes),
      A.tag = B.tag → A.rkey = B.rkey → A ≠ B →
      findRes s.resources (Res.test A).ident = none →
      Reality.ensure (Reality.ensure s (Res.test A)) (Res.test B) =
        ⟨s.resources ++ [((Res.test A).ident, Res.test A)],
         s.warnings ++ [⟨displayKey A.rkey, displayRes (Res.test A), displayRes (Res.test B)⟩]⟩
      ∧ findRes (Reality.ensure (Reality.ensure s (Res.test A)) (Res.test B)).resources
          (Res.test A).ident = some (Res.test A) := by
  intro s A B htag hkey hne hfind
  have hident : (Res.test B).ident = (Res.test A).ident := by
    simp [Res.ident, Res.typeId, Res.key, htag, hkey]
  have h1 : Reality.ensure s (Res.test A) =
      ⟨s.resources ++ [((Res.test A).ident, Res.test A)], s.warnings⟩ := by
    rw [ensure_test_eq, store_vacant hfind]
  have hfindA : findRes (s.resources ++ [((Res.test A).ident, Res.test A)])
      (Res.test A).ident = some (Res.test A) := by
    rw [findRes_append_none hfind]
    simp [findRes]
  have hfind2 : findRes (Reality.ensure s (Res.test A)).resources
      (Res.test B).ident = some (Res.test A) := by
    rw [h1, hident]
    exact hfindA
  have hneq : Res.test A ≠ Res.test B := by
    intro hh
    injection hh with hh2
    exact hne hh2
  have h2 : Reality.ensure (Reality.ensure s (Res.test A)) (Res.test B) =
      ⟨(Reality.ensure s (Res.test A)).resources,
       (Reality.ensure s (Res.test A)).warnings ++
         [⟨displayKey (Res.test B).ident.2, displayRes (Res.test A), displayRes (Res.test B)⟩]⟩ := by
    rw [ensure_test_eq]
    exact store_occupied_ne hfind2 hneq
  have hkey2 : (Res.test B).ident.2 = A.rkey := by
    simp [Res.ident, Res.key, hkey]
  constructor
  · rw [h2, hkey2, h1]
  · rw [h2]
    simp only
    rw [h1]
    simp only
    exact hfindA

/-- Concrete instance of C2: two abstract resources with the same identity
and different payloads. -/
theorem ensure_conflict_first_wins_witness :
    (Reality.ensure (Reality.ensure Reality.new
        (Res.test ⟨1, Key.string "svc", Except.ok true, Except.ok (), "service v1"⟩))
        (Res.test ⟨1, Key.string "svc", Except.ok false, Except.ok (), "service v2"⟩)).warnings.length = 1
    ∧ findRes (Reality.ensure (Reality.ensure Reality.new
        (Res.test ⟨1, Key.string "svc", Except.ok true, Except.ok (), "service v1"⟩))
        (Res.test ⟨1, Key.string "svc", Except.ok false, Except.ok (), "service v2"⟩)).resources
        (Res.test ⟨1, Key.string "svc", Except.ok true, Except.ok (), "service v1"⟩).ident =
      some (Res.test ⟨1, Key.string "svc", Except.ok true, Except.ok (), "service v1"⟩) := by
  have h := ensure_conflict_first_wins Reality.new
    ⟨1, Key.string "svc", Except.ok true, Except.ok (), "service v1"⟩
    ⟨1, Key.string "svc", Except.ok false, Except.ok (), "service v2"⟩
    rfl rfl (by decide) (by decide)
  refine ⟨?_, h.2⟩
  rw [h.1]
  rfl

/-- Claim C9: a `File` resource whose file type is `File` with no declared
contents — exactly what `File::at(path)` and `is_file()` build — has a
`realize` that performs no file-system operation at all: the target system is
returned completely unchanged with `Ok(())` (in the source the
`FileType::File` arm only acts when `contents` is `Some`; here the resulting
file system is exactly the input).  In particular a missing file is not
created. -/
theorem file_no_contents_realize_noop :
    ∀ (p : RPath) (fs : FS),
      fileRealize (File.at p) fs = Except.ok fs
      ∧ fileRealize (File.is_file (File.at p)) fs = Except.ok fs := by
  intro p fs
  exact ⟨rfl, rfl⟩

/-- Claim C8 is a code bug witnessed here: for an `is_absent()` declaration,
`File::verify` is inverted.  When the path exists as a regular file — the
target system does NOT match the declaration — the early existence check is
passed and the `Absent` match arm does nothing, so verify returns `Ok(true)`;
when the path does not exist — the target system DOES match the declaration —
the early `!self.path.exists()` check returns `Ok(false)`.  This contradicts
the claim (and §4.1 of the spec) that verify returns true iff the system
matches, and it contradicts `is_absent`'s own doc comment ("will be deleted
if it exists"): under the orchestrator the `Ok(true)` means `realize` is
never called, so the file is never deleted. -/
theorem absent_verify_inverted :
    fileVerify (File.is_absent (File.at ⟨true, ["tmp", "x"]⟩))
        [(⟨true, ["tmp", "x"]⟩, Node.file [104, 105])] = Except.ok true
    ∧ fileVerify (File.is_absent (File.at ⟨true, ["tmp", "x"]⟩)) [] = Except.ok false := by
  constructor <;> decide

/-- Claim C4 as stated is false on the code: because Rust's
`Path::new("a").parent()` is `Some("")`, ensuring a path resource at `a/b/c`
registers FOUR entries — the empty relative path `""` is registered as a
directory prerequisite of `a` — not three. -/
theorem nested_prerequisites_counterexample :
    (Reality.ensure Reality.new
        (Res.file ⟨⟨false, ["a", "b", "c"]⟩, FileType.file none⟩)).resources.length = 4
    ∧ ¬ (Reality.ensure Reality.new
        (Res.file ⟨⟨false, ["a", "b", "c"]⟩, FileType.file none⟩)).resources.length = 3 := by
  constructor <;> decide

/-- Claim C4 amended: declaring a single path resource at `a/b/c` without
explicitly declaring `a` or `a/b` yields exactly four registered entries —
the empty-path ancestor `""`, then `a`, then `a/b`, then `a/b/c` — and
realizing the aggregator invokes every member in exactly that order
(successfully, on an empty target system). -/
theorem nested_prerequisites_amended :
    (Reality.ensure Reality.new
        (Res.file ⟨⟨false, ["a", "b", "c"]⟩, FileType.file none⟩)).identities =
      [(0, Key.path ⟨false, []⟩), (0, Key.path ⟨false, ["a"]⟩),
       (0, Key.path ⟨false, ["a", "b"]⟩), (0, Key.path ⟨false, ["a", "b", "c"]⟩)]
    ∧ (Reality.realize (Reality.ensure Reality.new
        (Res.file ⟨⟨false, ["a", "b", "c"]⟩, FileType.file none⟩)) []).1.map Res.key =
      [Key.path ⟨false, []⟩, Key.path ⟨false, ["a"]⟩,
       Key.path ⟨false, ["a", "b"]⟩, Key.path ⟨false, ["a", "b", "c"]⟩]
    ∧ (Reality.realize (Reality.ensure Reality.new
        (Res.file ⟨⟨false, ["a", "b", "c"]⟩, FileType.file none⟩)) []).2 =
      Except.ok [(⟨false, ["a", "b"]⟩, Node.dir), (⟨false, ["a"]⟩, Node.dir)] := by
  refine ⟨by decide, by decide, by decide⟩

/-- Claim C7: one run of `apply_inner` calls the aggregator's `verify`
exactly once and its `realize` at most once — exactly once when and only
when `verify` returned `Ok(false)` — and when `verify` returns `Ok(true)` it
stops with success without realizing.  There is no retry loop and no
re-verification after `realize` (the verify count stays 1 in every case);
the configuration procedure is applied exactly once, to the empty aggregator
`Reality.new`, as the definition of `apply_inner` shows. -/
theorem apply_single_pass :
    ∀ (config : Reality → Reality) (fs : FS),
      (apply_inner config fs).verifyCalls = 1
      ∧ (apply_inner config fs).realizeCalls ≤ 1
      ∧ ((apply_inner config fs).realizeCalls = 1 ↔
          (Reality.verify (config Reality.new) fs).2 = Except.ok false)
      ∧ ((Reality.verify (config Reality.new) fs).2 = Except.ok true →
          apply_inner config fs = ⟨Except.ok (), 1, 0⟩) := by
  intro config fs
  cases hv : (Reality.verify (config Reality.new) fs).2 with
  | error e => simp [apply_inner, hv]
  | ok b =>
    cases b with
    | true => simp [apply_inner, hv]
    | false =>
      cases hr : (Reality.realize (config Reality.new) fs).2 <;>
        simp [apply_inner, hv, hr]

/-- Concrete instance of C7: the empty configuration verifies clean and is
not realized. -/
theorem apply_single_pass_witness :
    (apply_inner id []).verifyCalls = 1 ∧ apply_inner id [] = ⟨Except.ok (), 1, 0⟩ := by
  have h := apply_single_pass id []
  exact ⟨h.1, h.2.2.2 (by decide)⟩

/-- Members that verify clean pass the loop through to the rest. -/
theorem verifyMembers_ok_prefix :
    ∀ (pre : List Res) (fs : FS),
      (∀ r ∈ pre, r.runVerify fs = Except.ok true) →
      ∀ rest : List Res,
        verifyMembers (pre ++ rest) fs =
          (pre ++ (verifyMembers rest fs).1, (verifyMembers rest fs).2) := by
  intro pre
  induction pre with
  | nil => intro fs _ rest; simp
  | cons r pre ih =>
    intro fs h rest
    have hr : r.runVerify fs = Except.ok true := h r (List.mem_cons_self r pre)
    have hrest : ∀ x ∈ pre, x.runVerify fs = Except.ok true :=
      fun x hx => h x (List.mem_cons_of_mem r hx)
    have ihr := ih fs hrest rest
    simp only [List.cons_append, verifyMembers, hr]
    show (r :: (verifyMembers (pre ++ rest) fs).1, (verifyMembers (pre ++ rest) fs).2) =
      (r :: (pre ++ (verifyMembers rest fs).1), (verifyMembers rest fs).2)
    rw [ihr]

/-- Claim C5: the aggregator's `verify` iterates members in insertion order
and short-circuits.  First part: if every member before `m` verifies clean
and `m` returns `Ok(false)`, the aggregate returns `Ok(false)` having invoked
exactly the members up to and including `m` — no member after `m` is checked.
Second part: an aggregate `Ok(true)` means every member verified clean.
Third part: a member error is wrapped with the "Could not verify" context
naming the member and propagated at once, again invoking nothing after it. -/
theorem verify_short_circuit :
    (∀ (s : Reality) (pre post : List Res) (m : Res) (fs : FS),
        s.members = pre ++ m :: post →
        (∀ r ∈ pre, r.runVerify fs = Except.ok true) →
        m.runVerify fs = Except.ok false →
        Reality.verify s fs = (pre ++ [m], Except.ok false))
    ∧ (∀ (l : List Res) (fs : FS),
        (verifyMembers l fs).2 = Except.ok true →
        ∀ r ∈ l, r.runVerify fs = Except.ok true)
    ∧ (∀ (s : Reality) (pre post : List Res) (m : Res) (fs : FS) (e : RErr),
        s.members = pre ++ m :: post →
        (∀ r ∈ pre, r.runVerify fs = Except.ok true) →
        m.runVerify fs = Except.error e →
        Reality.verify s fs =
          (pre ++ [m], Except.error (RErr.ctx ("Could not verify " ++ displayRes m) e))) := by
  refine ⟨?_, ?_, ?_⟩
  · intro s pre post m fs hm hpre hfalse
    rw [Reality.verify, hm, verifyMembers_ok_prefix pre fs hpre (m :: post)]
    simp [verifyMembers, hfalse]
  · intro l
    induction l with
    | nil => intro fs _ r hr; cases hr
    | cons r rest ih =>
      intro fs hres x hx
      cases hrx : r.runVerify fs with
      | error e => simp [verifyMembers, hrx] at hres
      | ok b =>
        cases b with
        | false => simp [verifyMembers, hrx] at hres
        | true =>
          rcases List.mem_cons.mp hx with hxr | hxrest
          · rw [hxr]; exact hrx
          · simp only [verifyMembers, hrx] at hres
            exact ih fs hres x hxrest
  · intro s pre post m fs e hm hpre herr
    rw [Reality.verify, hm, verifyMembers_ok_prefix pre fs hpre (m :: post)]
    simp [verifyMembers, herr]

/-- Concrete instance of C5: with members `[m1, m2, m3]` where `m1` verifies
false, only `m1` is checked and the aggregate verify is false. -/
theorem verify_short_circuit_witness :
    Reality.verify
      ⟨[((1, Key.string "m1"), Res.test ⟨0, Key.string "m1", Except.ok false, Except.ok (), "m1"⟩),
        ((2, Key.string "m2"), Res.test ⟨1, Key.string "m2", Except.ok true, Except.ok (), "m2"⟩),
        ((3, Key.string "m3"), Res.test ⟨2, Key.string "m3", Except.ok true, Except.ok (), "m3"⟩)], []⟩ [] =
      ([Res.test ⟨0, Key.string "m1", Except.ok false, Except.ok (), "m1"⟩], Except.ok false) :=
  verify_short_circuit.1 _ []
    [Res.test ⟨1, Key.string "m2", Except.ok true, Except.ok (), "m2"⟩,
     Res.test ⟨2, Key.string "m3", Except.ok true, Except.ok (), "m3"⟩]
    (Res.test ⟨0, Key.string "m1", Except.ok false, Except.ok (), "m1"⟩) [] rfl
    (by intro r hr; cases hr) rfl

/-- Members that realize successfully pass the loop (and the file system
they produced) through to the rest. -/
theorem realizeMembers_ok_prefix :
    ∀ (pre : List Res) (fs fs1 : FS),
      realizeMembers pre fs = (pre, Except.ok fs1) →
      ∀ rest : List Res,
        realizeMembers (pre ++ rest) fs =
          (pre ++ (realizeMembers rest fs1).1, (realizeMembers rest fs1).2) := by
  intro pre
  induction pre with
  | nil =>
    intro fs fs1 h rest
    have hfs : fs = fs1 := by
      have := congrArg Prod.snd h
      simpa [realizeMembers] using this
    subst hfs
    simp
  | cons r pre ih =>
    intro fs fs1 h rest
    cases hrr : r.runRealize fs with
    | error e => simp [realizeMembers, hrr] at h
    | ok fsx =>
      simp only [realizeMembers, hrr] at h
      have h1 : (realizeMembers pre fsx).1 = pre := by
        have := congrArg Prod.fst h
        simpa using this
      have h2 : (realizeMembers pre fsx).2 = Except.ok fs1 := by
        have := congrArg Prod.snd h
        simpa using this
      have hpre : realizeMembers pre fsx = (pre, Except.ok fs1) := by
        rw [Prod.ext_iff]
        exact ⟨h1, h2⟩
      have ihr := ih fsx fs1 hpre rest
      simp only [List.cons_append, realizeMembers, hrr]
      show (r :: (realizeMembers (pre ++ rest) fsx).1, (realizeMembers (pre ++ rest) fsx).2) =
        (r :: (pre ++ (realizeMembers rest fs1).1), (realizeMembers rest fs1).2)
      rw [ihr]

/-- Claim C6: the aggregator's `realize` invokes members in insertion order;
when all members before `m` realize successfully and `m` fails, the error is
wrapped with the "Could not realize" context carrying `m`'s `Display`
description (which, per the describe contract, renders the member's key —
`File`'s display prints its path) and propagated immediately: exactly the
members up to and including `m` were invoked, so no member after `m` is ever
realized.  Second part: on overall success every member was invoked, in
insertion order. -/
theorem realize_fail_fast :
    (∀ (s : Reality) (pre post : List Res) (m : Res) (fs fs1 : FS) (e : RErr),
        s.members = pre ++ m :: post →
        realizeMembers pre fs = (pre, Except.ok fs1) →
        m.runRealize fs1 = Except.error e →
        Reality.realize s fs =
          (pre ++ [m],
           Except.error (RErr.ctx ("Could not realize " ++ displayRes m) e)))
    ∧ (∀ (l : List Res) (fs fsv : FS),
        (realizeMembers l fs).2 = Except.ok fsv →
        (realizeMembers l fs).1 = l) := by
  constructor
  · intro s pre post m fs fs1 e hm hpre herr
    rw [Reality.realize, hm, realizeMembers_ok_prefix pre fs fs1 hpre (m :: post)]
    simp [realizeMembers, herr]
  · intro l
    induction l with
    | nil => intro fs fsv _; rfl
    | cons r rest ih =>
      intro fs fsv h
      cases hrr : r.runRealize fs with
      | error e => simp [realizeMembers, hrr] at h
      | ok fsx =>
        have hstep : realizeMembers (r :: rest) fs =
            (r :: (realizeMembers rest fsx).1, (realizeMembers rest fsx).2) := by
          simp [realizeMembers, hrr]
        rw [hstep] at h ⊢
        show r :: (realizeMembers rest fsx).1 = r :: rest
        exact congrArg (List.cons r) (ih fsx fsv h)

/-- Concrete instance of C6: with members `[m1, m2, m3]` where `m2` errors,
`m3` is never invoked and the surfaced error names `m2`. -/
theorem realize_fail_fast_witness :
    Reality.realize
      ⟨[((1, Key.string "m1"), Res.test ⟨0, Key.string "m1", Except.ok true, Except.ok (), "m1"⟩),
        ((2, Key.string "m2"),
         Res.test ⟨1, Key.string "m2", Except.ok true, Except.error (RErr.base "disk full"), "m2"⟩),
        ((3, Key.string "m3"), Res.test ⟨2, Key.string "m3", Except.ok true, Except.ok (), "m3"⟩)], []⟩ [] =
      ([Res.test ⟨0, Key.string "m1", Except.ok true, Except.ok (), "m1"⟩,
        Res.test ⟨1, Key.string "m2", Except.ok true, Except.error (RErr.base "disk full"), "m2"⟩],
       Except.error (RErr.ctx ("Could not realize " ++
         displayRes (Res.test ⟨1, Key.string "m2", Except.ok true, Except.error (RErr.base "disk full"), "m2"⟩))
         (RErr.base "disk full"))) :=
  realize_fail_fast.1 _
    [Res.test ⟨0, Key.string "m1", Except.ok true, Except.ok (), "m1"⟩]
    [Res.test ⟨2, Key.string "m3", Except.ok true, Except.ok (), "m3"⟩]
    (Res.test ⟨1, Key.string "m2", Except.ok true, Except.error (RErr.base "disk full"), "m2"⟩)
    [] [] (RErr.base "disk full") rfl (by decide) rfl

/-- Unfolding equation for `Reality.ensure` on a `File`: the implicit phase
ensures the parent directory (when there is a parent) before the entry
match runs for the file itself. -/
theorem ensure_file_eq (s : Reality) (f : File) :
    Reality.ensure s (Res.file f) =
      Reality.store
        (match f.path.parent with
         | some p => Reality.ensure s (Res.file ⟨p, FileType.dir⟩)
         | none => s)
        (Res.file f) := by
  obtain ⟨⟨abs, cs⟩, ft⟩ := f
  cases cs with
  | nil => rfl
  | cons c rest =>
    have hlen : ((c :: rest).dropLast).length = rest.length := by
      simp [List.length_dropLast]
    show Reality.ensureGo (rest.length + 1) s (Res.file ⟨⟨abs, c :: rest⟩, ft⟩) = _
    simp only [Reality.ensureGo, RPath.parent, Reality.ensure, Res.implicitDepth]
    rw [hlen]

/-- Claim C10: every `File` resource whose path has a parent — whatever its
declared file type, including `is_absent()` — performs exactly one implicit
registration on `ensure`: a `File` at the parent path declared as a
directory, `File::at(parent).is_dir()`; the `ensure` of the file is exactly
that one parent `ensure` followed by the file's own entry match, and the
parent directory's identity is registered afterwards (so ensuring a file's
absence still registers — and `realize` may later create — its parent
directory).  A path without a parent registers nothing implicitly. -/
theorem implicit_parent_registration :
    ∀ (s : Reality) (f : File),
      (∀ p : RPath, f.path.parent = some p →
        Reality.ensure s (Res.file f) =
          Reality.store (Reality.ensure s (Res.file (File.is_dir (File.at p)))) (Res.file f)
        ∧ (0, Key.path p) ∈ (Reality.ensure s (Res.file f)).identities)
      ∧ (f.path.parent = none →
        Reality.ensure s (Res.file f) = Reality.store s (Res.file f)) := by
  intro s f
  constructor
  · intro p hp
    have heq := ensure_file_eq s f
    rw [hp] at heq
    constructor
    · exact heq
    · rw [heq]
      have hmem : (Res.file ⟨p, FileType.dir⟩).ident ∈
          (Reality.ensure s (Res.file ⟨p, FileType.dir⟩)).identities :=
        ensure_ident_mem s (Res.file ⟨p, FileType.dir⟩)
      exact store_ident_superset (Res.file f) hmem
  · intro hp
    have heq := ensure_file_eq s f
    rw [hp] at heq
    exact heq

/-- Concrete instance of C10: ensuring `a/b` declared absent still registers
the parent directory `a`. -/
theorem implicit_parent_registration_witness :
    Reality.ensure Reality.new (Res.file (File.is_absent (File.at ⟨false, ["a", "b"]⟩))) =
      Reality.store (Reality.ensure Reality.new (Res.file (File.is_dir (File.at ⟨false, ["a"]⟩))))
        (Res.file (File.is_absent (File.at ⟨false, ["a", "b"]⟩)))
    ∧ (0, Key.path ⟨false, ["a"]⟩) ∈
        (Reality.ensure Reality.new
          (Res.file (File.is_absent (File.at ⟨false, ["a", "b"]⟩)))).identities :=
  (implicit_parent_registration Reality.new (File.is_absent (File.at ⟨false, ["a", "b"]⟩))).1
    ⟨false, ["a"]⟩ rfl

/-- An index that yields an entry is within bounds. -/
theorem lt_of_getElem?_some {α : Type} {l : List α} {i : Nat} {a : α}
    (h : l[i]? = some a) : i < l.length := by
  by_contra hc
  push_neg at hc
  rw [List.getElem?_eq_none_iff.mpr hc] at h
  cases h

/-- A present identity occupies some in-bounds position. -/
theorem mem_fst_index {l : List ((Nat × Key) × Res)} {k : Nat × Key}
    (h : k ∈ l.map Prod.fst) :
    ∃ j, j < l.length ∧ ∃ e, l[j]? = some e ∧ e.1 = k := by
  obtain ⟨e, he, hek⟩ := List.mem_map.mp h
  obtain ⟨j, hj⟩ := List.getElem?_of_mem he
  exact ⟨j, lt_of_getElem?_some hj, e, hj, hek⟩

/-- Entry-list form of `store_vacant`. -/
theorem store_vacant_resources {s : Reality} {r : Res}
    (h : findRes s.resources r.ident = none) :
    (Reality.store s r).resources = s.resources ++ [(r.ident, r)] := by
  rw [store_vacant h]

/-- `Reality.store` preserves the prerequisite-ordering invariant, provided
that when it inserts a `File` with a parent, the parent's identity is
already present. -/
theorem store_parents_before {s : Reality} {r : Res}
    (h : ParentsBefore s)
    (hpre : ∀ (f : File) (p : RPath), r = Res.file f → f.path.parent = some p →
      (0, Key.path p) ∈ s.identities) :
    ParentsBefore (Reality.store s r) := by
  cases hfind : findRes s.resources r.ident with
  | some existing =>
    intro i k f hi p hp
    rw [store_occupied hfind] at hi
    obtain ⟨j, hj, r2, hr2⟩ := h i k f hi p hp
    exact ⟨j, hj, r2, by rw [store_occupied hfind]; exact hr2⟩
  | none =>
    intro i k f hi p hp
    rw [store_vacant_resources hfind] at hi
    rcases Nat.lt_trichotomy i s.resources.length with hlt | heq | hgt
    · rw [List.getElem?_append_left hlt] at hi
      obtain ⟨j, hj, r2, hr2⟩ := h i k f hi p hp
      have hjlt : j < s.resources.length := Nat.lt_trans hj hlt
      refine ⟨j, hj, r2, ?_⟩
      rw [store_vacant_resources hfind, List.getElem?_append_left hjlt]
      exact hr2
    · have hx : (s.resources ++ [(r.ident, r)])[s.resources.length]? = some (r.ident, r) := by
        simp
      rw [heq, hx] at hi
      injection hi with hi2
      injection hi2 with hk hr
      have hmem := hpre f p hr hp
      obtain ⟨j, hjlen, e, hej, hek⟩ := mem_fst_index hmem
      refine ⟨j, by omega, e.2, ?_⟩
      rw [store_vacant_resources hfind, List.getElem?_append_left hjlen, hej]
      rw [← hek]
    · have hnone : (s.resources ++ [(r.ident, r)])[i]? = none := by
        rw [List.getElem?_eq_none_iff]
        simp only [List.length_append, List.length_cons, List.length_nil]
        omega
      rw [hnone] at hi
      cases hi

/-- `Reality.store` keeps every entry keyed by its resource's identity. -/
theorem store_consistent {s : Reality} (r : Res) (h : Consistent s) :
    Consistent (Reality.store s r) := by
  cases hfind : findRes s.resources r.ident with
  | some existing =>
    intro e he
    rw [store_occupied hfind] at he
    exact h e he
  | none =>
    intro e he
    rw [store_vacant_resources hfind] at he
    rcases List.mem_append.mp he with h1 | h2
    · exact h e h1
    · rw [List.mem_singleton.mp h2]

/-- `Reality.ensureGo` keeps every entry keyed by its resource's identity. -/
theorem ensureGo_consistent :
    ∀ (fuel : Nat) (s : Reality) (r : Res),
      Consistent s → Consistent (Reality.ensureGo fuel s r) := by
  intro fuel
  induction fuel with
  | zero =>
    intro s r h
    cases r with
    | test t => exact store_consistent (.test t) h
    | file f => exact store_consistent (.file f) h
  | succ n ih =>
    intro s r h
    cases r with
    | test t => exact store_consistent (.test t) h
    | file f =>
      show Consistent (Reality.store _ (Res.file f))
      cases hp : f.path.parent with
      | none =>
        simp only [hp]
        exact store_consistent (.file f) h
      | some p =>
        simp only [hp]
        exact store_consistent (.file f) (ih s (.file ⟨p, FileType.dir⟩) h)

/-- One parent step removes exactly one path component. -/
theorem parent_components_length {p q : RPath} (h : p.parent = some q) :
    q.components.length + 1 = p.components.length := by
  obtain ⟨abs, cs⟩ := p
  cases cs with
  | nil => simp [RPath.parent] at h
  | cons c rest =>
    simp only [RPath.parent] at h
    cases h
    show ((c :: rest).dropLast).length + 1 = rest.length + 1
    simp [List.length_dropLast]

/-- With enough fuel (which `Reality.ensure` always supplies), `ensureGo`
preserves the prerequisite-ordering invariant: the implicit phase registers
the parent chain before the entry match inserts the dependent. -/
theorem ensureGo_parents_before :
    ∀ (fuel : Nat) (s : Reality) (r : Res),
      r.implicitDepth ≤ fuel → ParentsBefore s →
      ParentsBefore (Reality.ensureGo fuel s r) := by
  intro fuel
  induction fuel with
  | zero =>
    intro s r hd h
    cases r with
    | test t => exact store_parents_before h (by intro f p hrf; cases hrf)
    | file f =>
      obtain ⟨⟨abs, cs⟩, ft⟩ := f
      simp only [Res.implicitDepth] at hd
      have hcs : cs = [] := List.eq_nil_of_length_eq_zero (Nat.le_zero.mp hd)
      subst hcs
      refine store_parents_before h ?_
      intro f' p hrf hp
      injection hrf with h2
      subst h2
      simp [RPath.parent] at hp
  | succ n ih =>
    intro s r hd h
    cases r with
    | test t => exact store_parents_before h (by intro f p hrf; cases hrf)
    | file f =>
      show ParentsBefore (Reality.store _ (Res.file f))
      cases hp : f.path.parent with
      | none =>
        simp only [hp]
        refine store_parents_before h ?_
        intro f' p' hrf hp'
        injection hrf with h2
        subst h2
        rw [hp] at hp'
        cases hp'
      | some pp =>
        simp only [hp]
        have hdd : (Res.file ⟨pp, FileType.dir⟩).implicitDepth ≤ n := by
          have hl := parent_components_length hp
          simp only [Res.implicitDepth] at hd ⊢
          omega
        have h' := ih s (Res.file ⟨pp, FileType.dir⟩) hdd h
        refine store_parents_before h' ?_
        intro f' p' hrf hp'
        injection hrf with h2
        subst h2
        rw [hp] at hp'
        injection hp' with h3
        subst h3
        exact ensureGo_ident_mem n s (Res.file ⟨pp, FileType.dir⟩)

/-- Unfolding equation for the ancestor chain: one parent step, then the
parent's own chain. -/
theorem ancestors_eq (p : RPath) :
    p.ancestors =
      (match p.parent with
       | none => []
       | some q => q :: q.ancestors) := by
  obtain ⟨abs, cs⟩ := p
  cases cs with
  | nil => rfl
  | cons c rest =>
    show RPath.ancestorsGo (rest.length + 1) ⟨abs, c :: rest⟩ = _
    simp only [RPath.ancestorsGo, RPath.parent, RPath.ancestors]
    have hlen : ((c :: rest).dropLast).length = rest.length := by
      simp [List.length_dropLast]
    rw [hlen]

/-- In a consistent aggregator satisfying the single-step prerequisite
invariant, the whole recursively expanded ancestor chain of every stored
`File` sits at strictly earlier positions. -/
theorem parents_chain :
    ∀ (n : Nat) (s : Reality), Consistent s → ParentsBefore s →
      ∀ (i : Nat) (k : Nat × Key) (f : File),
        f.path.components.length ≤ n →
        s.resources[i]? = some (k, Res.file f) →
        ∀ q ∈ f.path.ancestors,
          ∃ j, j < i ∧ ∃ r2, s.resources[j]? = some ((0, Key.path q), r2) := by
  intro n
  induction n with
  | zero =>
    intro s _ _ i k f hlen hi q hq
    obtain ⟨⟨abs, cs⟩, ft⟩ := f
    simp only at hlen
    have hcs : cs = [] := List.eq_nil_of_length_eq_zero (Nat.le_zero.mp hlen)
    subst hcs
    cases hq
  | succ n ih =>
    intro s hc hpb i k f hlen hi q hq
    rw [ancestors_eq] at hq
    cases hp : f.path.parent with
    | none =>
      rw [hp] at hq
      cases hq
    | some pp =>
      rw [hp] at hq
      obtain ⟨j, hj, r2, hr2⟩ := hpb i k f hi pp hp
      rcases List.mem_cons.mp hq with hqe | hqrest
      · subst hqe
        exact ⟨j, hj, r2, hr2⟩
      · have hmem := List.getElem?_mem hr2
        have hcons := hc _ hmem
        cases r2 with
        | test t =>
          exfalso
          have h0 := congrArg Prod.fst hcons
          simp [Res.ident, Res.typeId] at h0
        | file f2 =>
          have hkey := congrArg Prod.snd hcons
          simp only [Res.ident, Res.key] at hkey
          injection hkey with hpath
          have hlen2 : f2.path.components.length ≤ n := by
            have hpl := parent_components_length hp
            rw [← hpath]
            omega
          have hq2 : q ∈ f2.path.ancestors := by
            rw [← hpath]
            exact hqrest
          obtain ⟨j', hj', r3, hr3⟩ := ih s hc hpb j _ f2 hlen2 hr2 q hq2
          exact ⟨j', Nat.lt_trans hj' hj, r3, hr3⟩

/-- Both aggregator invariants hold in every state reachable from
`Reality::new` by `ensure` calls. -/
theorem foldl_ensure_invariants (rs : List Res) :
    Consistent (rs.foldl Reality.ensure Reality.new)
    ∧ ParentsBefore (rs.foldl Reality.ensure Reality.new) := by
  suffices h : ∀ (l : List Res) (s : Reality),
      Consistent s → ParentsBefore s →
      Consistent (l.foldl Reality.ensure s) ∧ ParentsBefore (l.foldl Reality.ensure s) by
    refine h rs Reality.new ?_ ?_
    · intro e he
      cases he
    · intro i k f hi p hp
      simp [Reality.new] at hi
  intro l
  induction l with
  | nil => intro s hc hp; exact ⟨hc, hp⟩
  | cons r rest ih =>
    intro s hc hp
    exact ih (Reality.ensure s r)
      (ensureGo_consistent r.implicitDepth s r hc)
      (ensureGo_parents_before r.implicitDepth s r (Nat.le_refl _) hp)

/-- Claim C3: in any aggregator built by a sequence of `ensure` calls from
`Reality::new`, every stored `File`'s implicit prerequisites — its whole
recursively expanded parent-directory chain — are registered strictly
before the file itself, so each prerequisite's position in the iteration
order strictly precedes its dependent's position. -/
theorem prerequisites_precede_dependents :
    ∀ (rs : List Res) (i : Nat) (k : Nat × Key) (f : File),
      (rs.foldl Reality.ensure Reality.new).resources[i]? = some (k, Res.file f) →
      ∀ q ∈ f.path.ancestors,
        ∃ j, j < i ∧ ∃ r2,
          (rs.foldl Reality.ensure Reality.new).resources[j]? = some ((0, Key.path q), r2) := by
  intro rs i k f hi q hq
  obtain ⟨hc, hpb⟩ := foldl_ensure_invariants rs
  exact parents_chain f.path.components.length _ hc hpb i k f (Nat.le_refl _) hi q hq

/-- Concrete instance of C3: after ensuring `a/b`, the prerequisite `a`
occupies an earlier position than `a/b`. -/
theorem prerequisites_precede_dependents_witness :
    (([Res.file (File.at ⟨false, ["a", "b"]⟩)].foldl Reality.ensure Reality.new).resources[2]? =
      some ((0, Key.path ⟨false, ["a", "b"]⟩), Res.file (File.at ⟨false, ["a", "b"]⟩)))
    ∧ ∃ j, j < 2 ∧ ∃ r2,
        ([Res.file (File.at ⟨false, ["a", "b"]⟩)].foldl Reality.ensure Reality.new).resources[j]? =
          some ((0, Key.path ⟨false, ["a"]⟩), r2) :=
  ⟨by decide,
   prerequisites_precede_dependents [Res.file (File.at ⟨false, ["a", "b"]⟩)] 2
     (0, Key.path ⟨false, ["a", "b"]⟩) (File.at ⟨false, ["a", "b"]⟩) (by decide)
     ⟨false, ["a"]⟩ (by decide)⟩
